import Mathlib

/-!
Verification development for the slvm core (compiler + register VM for a
small Lisp).  The Rust sources are shallowly embedded: machine integers
are modelled as `Nat`/`Int` with explicit `% 2^w` where overflow matters,
fallible operations return `Except`/`Option`, and mutable state is passed
explicitly.  Code that lives in crates whose sources are not available
(register plumbing, the error constructors, the VM call sequence, the
compile-state helpers) is modelled from the specification and marked as
such in its doc comment.  The file lists all definitions first and all
theorems after them.
-/

namespace SLVM

/-- An interned string id (`Interned` in the interner). -/
abbrev Interned := Nat

/-- A heap handle (index into the heap's object vector). -/
abbrev Handle := Nat

/-- IEEE-754 binary32 bit pattern: sign bit, biased exponent byte and
23-bit fraction.  This is the payload of `F32Wrap` (an `f32`, kept by bit
pattern). -/
structure F32 where
  sign : Bool
  biasedExp : Nat
  frac : Nat
deriving DecidableEq, Repr

/-- The uniform tagged value (`Value` in core_types/src/value.rs).  The
`Int` variant stores seven bytes (an i56), `Float` stores an f32 bit
pattern, `List` stores a handle and a u16 start index. -/
inductive Value where
  | Byte (b : Nat)
  | Int (arr : List Nat)
  | Float (f : F32)
  | CodePoint (c : Char)
  | CharCluster (len : Nat) (bytes : List Nat)
  | CharClusterLong (h : Handle)
  | Symbol (i : Interned)
  | Keyword (i : Interned)
  | StringConst (i : Interned)
  | Special (i : Interned)
  | Builtin (i : Nat)
  | True
  | False
  | Nil
  | Undefined
  | String (h : Handle)
  | Vector (h : Handle)
  | Map (h : Handle)
  | Bytes (h : Handle)
  | Pair (h : Handle)
  | List (h : Handle) (start : Nat)
  | Lambda (h : Handle)
  | Closure (h : Handle)
  | Continuation (h : Handle)
  | CallFrame (h : Handle)
  | Value (h : Handle)
  | Error (h : Handle)
deriving DecidableEq, Repr

/-- A VM error value: an error keyword (`:vm`, `:heap`, `:compile`,
`:arity`, ...) together with a reason.  Modelled from the spec: the error
type itself lives in the missing `error.rs`; section 7 of the spec lists
the keyword kinds carried by each constructor. -/
structure VMError where
  key : String
  reason : String
deriving DecidableEq, Repr

/-- Modelled from the spec: `VMError::new_vm` builds an error with keyword `:vm`. -/
def VMError.new_vm (reason : String) : VMError := ⟨"vm", reason⟩

/-- Modelled from the spec: `VMError::new_heap` builds an error with keyword `:heap`. -/
def VMError.new_heap (reason : String) : VMError := ⟨"heap", reason⟩

/-- Modelled from the spec: `VMError::new_compile` builds an error with keyword `:compile`. -/
def VMError.new_compile (reason : String) : VMError := ⟨"compile", reason⟩

/-- Modelled from the spec: an arity violation carries the keyword `:arity`. -/
def VMError.new_arity (reason : String) : VMError := ⟨"arity", reason⟩

/-- Modelled from the spec: `VMError::new_value` builds an error with keyword `:value`. -/
def VMError.new_value (reason : String) : VMError := ⟨"value", reason⟩

/-! ## Signed 56-bit integers (vm/src/value.rs, `to_i56` / `from_i56`) -/

/-- `INT_MAX = 2^55 - 1` (vm/src/value.rs). -/
def INT_MAX : Int := 2 ^ 55 - 1

/-- `INT_MIN = -(2^55)` (vm/src/value.rs). -/
def INT_MIN : Int := -(2 ^ 55)

/-- Big-endian byte decomposition of a `u64` value, as done by
`i64::to_be_bytes` on the two's-complement bit pattern. -/
def u64_to_be_bytes (n : Nat) : List Nat :=
  [n / 2 ^ 56 % 256, n / 2 ^ 48 % 256, n / 2 ^ 40 % 256, n / 2 ^ 32 % 256,
   n / 2 ^ 24 % 256, n / 2 ^ 16 % 256, n / 2 ^ 8 % 256, n % 256]

/-- `i64::from_be_bytes`: assemble the bytes (each already `< 256`, being
`u8` in the source) big-endian and interpret the 64-bit pattern as a
two's-complement signed integer. -/
def i64_from_be_bytes (bytes : List Nat) : Int :=
  let n : Nat := bytes.foldl (fun acc b => acc * 256 + b) 0
  if 2 ^ 63 ≤ n then (n : Int) - 2 ^ 64 else (n : Int)

/-- `to_i56` (vm/src/value.rs): take the two's-complement bytes of `i` and
keep the low seven, wrapped in `Value::Int`. -/
def to_i56 (i : Int) : Value :=
  let bytes := u64_to_be_bytes (i % (2 ^ 64)).toNat
  Value.Int (bytes.drop 1)

/-- `from_i56` (vm/src/value.rs): prepend `0xff` when the top bit of the
first byte is set, else `0x00`, and read the result as an `i64`. -/
def from_i56 (arr : List Nat) : Int :=
  if arr.headD 0 &&& 128 > 0 then
    i64_from_be_bytes (255 :: arr)
  else
    i64_from_be_bytes (0 :: arr)

/-! ## Heap and value views -/

/-- A heap object.  The heap owns pairs (`car`, `cdr`), vectors, and
indirection cells (the boxed locals closures capture); the other object
kinds (strings, maps, chunks, ...) play no role in the claims below and
are represented by `other`. -/
inductive HeapObj where
  | pr (car cdr : Value)
  | vec (elems : List Value)
  | cell (v : Value)
  | other
deriving DecidableEq, Repr

/-- The heap: handles index into the object list. -/
abbrev Heap := List HeapObj

/-- `GVm::get_pair`: read a pair by handle.  The source indexes the heap
directly (panicking on a non-pair); a default is returned here and the
theorems carry the well-formedness their statements need. -/
def Heap.getPair (hp : Heap) (h : Handle) : Value × Value :=
  match hp.getD h HeapObj.other with
  | HeapObj.pr a d => (a, d)
  | _ => (Value.Undefined, Value.Undefined)

/-- `GVm::get_vector`: read a vector by handle (default empty). -/
def Heap.getVector (hp : Heap) (h : Handle) : List Value :=
  match hp.getD h HeapObj.other with
  | HeapObj.vec es => es
  | _ => []

/-- `GVm::get_value`: read an indirection cell by handle. -/
def Heap.getValue (hp : Heap) (h : Handle) : Value :=
  match hp.getD h HeapObj.other with
  | HeapObj.cell v => v
  | _ => Value.Undefined

/-- `GVm::alloc_pair`: allocate a fresh pair, returning the new heap and
the `Value::Pair` handle (heap handles are allocated in sequence). -/
def Heap.alloc_pair (hp : Heap) (car cdr : Value) : Heap × Value :=
  (hp ++ [HeapObj.pr car cdr], Value.Pair hp.length)

/-- `get_pair_mut` + car store: overwrite the car of the pair at `h`;
`none` when the handle does not reference a pair. -/
def Heap.setCar (hp : Heap) (h : Handle) (v : Value) : Option Heap :=
  match hp.getD h HeapObj.other with
  | HeapObj.pr _ d => some (hp.set h (HeapObj.pr v d))
  | _ => none

/-- `get_pair_mut` + cdr store: overwrite the cdr of the pair at `h`. -/
def Heap.setCdr (hp : Heap) (h : Handle) (v : Value) : Option Heap :=
  match hp.getD h HeapObj.other with
  | HeapObj.pr a _ => some (hp.set h (HeapObj.pr a v))
  | _ => none

/-- Write an indirection cell's content (no-op when `h` is not a cell; the
source's `get_value_mut` would panic there). -/
def Heap.setCell (hp : Heap) (h : Handle) (v : Value) : Heap :=
  match hp.getD h HeapObj.other with
  | HeapObj.cell _ => hp.set h (HeapObj.cell v)
  | _ => hp

/-- `Value::unref` (core_types/src/value.rs): look through an indirection
cell, otherwise return the value unchanged. -/
def unref (hp : Heap) (v : Value) : Value :=
  match v with
  | Value.Value h => hp.getValue h
  | _ => v

/-- `Value::is_nil` (core_types/src/value.rs). -/
def is_nil (v : Value) : Bool :=
  match v with
  | Value.Nil => true
  | _ => false

/-- `Value::get_pair` (core_types/src/value.rs lines 219-242): decompose a
`Pair` or a `List` view into `(car, cdr)`.  For a `List(h, start)` the car
is the vector element at `start` (or `Nil` past the end) and the cdr is
`List(h, start_u16 + 1)` while `start + 1` is in range, where the `+ 1`
is performed on the u16 field and therefore wraps modulo `2^16`. -/
def get_pair (hp : Heap) (v : Value) : Option (Value × Value) :=
  match v with
  | Value.Pair h => some (hp.getPair h)
  | Value.List h start =>
    let vec := hp.getVector h
    let car := if start < vec.length then vec.getD start Value.Nil else Value.Nil
    let cdr := if start + 1 < vec.length then Value.List h ((start + 1) % 2 ^ 16)
               else Value.Nil
    some (car, cdr)
  | _ => none

/-- `Value::is_proper_list` (core_types/src/value.rs lines 411-424): a
`Pair` is a proper list when its cdr is `Nil` or recursively a proper
list; otherwise only a `List` view answers true — the source comment says
"does not detect empty (nil) lists on purpose".  The Rust recursion runs
on the cdr chain; `fuel` bounds that recursion (on a cyclic chain the
source would not terminate), so "the source returns true" is rendered as
"some fuel returns true". -/
def is_proper_list (hp : Heap) : Nat → Value → Bool
  | 0, _ => false
  | fuel + 1, v =>
    match v with
    | Value.Pair h =>
      let cdr := (hp.getPair h).2
      if is_nil cdr then true else is_proper_list hp fuel cdr
    | Value.List _ _ => true
    | _ => false

/-- The glossary's notion of a proper list ("either `Nil` or a pair whose
cdr is a proper list"), written as an inductive predicate over the heap.
This follows the spec's words, to be compared with the source's
`is_proper_list`. -/
inductive SpecProperList (hp : Heap) : Value → Prop
  | nil : SpecProperList hp Value.Nil
  | pair (h : Handle) :
      SpecProperList hp (hp.getPair h).2 → SpecProperList hp (Value.Pair h)

/-- What `is_proper_list` actually recognizes: a `List` view, or a pair
whose cdr is `Nil`, or a pair whose non-`Nil` cdr is again recognized.
`Nil` itself is not recognized. -/
inductive CodeProperList (hp : Heap) : Value → Prop
  | listView (h : Handle) (s : Nat) : CodeProperList hp (Value.List h s)
  | pairNil (h : Handle) :
      (hp.getPair h).2 = Value.Nil → CodeProperList hp (Value.Pair h)
  | pairStep (h : Handle) :
      (hp.getPair h).2 ≠ Value.Nil → CodeProperList hp (hp.getPair h).2 →
      CodeProperList hp (Value.Pair h)

/-! ## VM state and the cons opcodes (vm/src/vm/cons.rs) -/

/-- The observable VM state for the cons opcodes: the current frame's
register window and the heap. -/
structure VMState where
  registers : List Value
  heap : Heap
deriving DecidableEq, Repr

/-- `get_reg_unref!` (vm macro, not under src/): read a register and look
through an indirection cell.  Modelled from the spec: "Every opcode that
reads a register must unref indirection cells". -/
def VMState.get_reg_unref (st : VMState) (i : Nat) : Value :=
  unref st.heap (st.registers.getD i Value.Undefined)

/-- Modelled from the spec: `set_register` (vm interpreter module, not
under src/) stores a value into a frame register, writing through an
indirection cell when the register currently holds one (the spec: `SET`
honors indirection cells, and captured locals are shared through boxes). -/
def VMState.set_register (st : VMState) (i : Nat) (v : Value) : VMState :=
  match st.registers.getD i Value.Undefined with
  | Value.Value h => { st with heap := st.heap.setCell h v }
  | _ => { st with registers := st.registers.set i v }

/-- `Vm::xar` (vm/src/vm/cons.rs lines 129-146), after operand decoding:
mutate the car of the pair held (possibly through a box) in `pair_reg`;
promote `Nil` to a fresh pair `(val . nil)` stored back in the register;
reject a `List` view or any other value with a `:vm` error. -/
def Vm.xar (st : VMState) (pair_reg val_reg : Nat) : Except VMError VMState :=
  let pair := st.get_reg_unref pair_reg
  let val := st.get_reg_unref val_reg
  match pair with
  | Value.Pair handle =>
    match st.heap.setCar handle val with
    | some hp => Except.ok { st with heap := hp }
    | none => Except.error (VMError.new_heap ("Pair is not mutable!"))
  | Value.Nil =>
    let alloc := st.heap.alloc_pair val Value.Nil
    Except.ok (VMState.set_register { st with heap := alloc.1 } pair_reg alloc.2)
  | Value.List _ _ => Except.error (VMError.new_vm ("XAR: Pair is read only."))
  | _ => Except.error (VMError.new_vm ("XAR: Not a pair/conscell."))

/-- `Vm::xdr` (vm/src/vm/cons.rs lines 148-165): as `xar` but for the cdr;
`Nil` promotes to `(nil . val)`. -/
def Vm.xdr (st : VMState) (pair_reg val_reg : Nat) : Except VMError VMState :=
  let pair := st.get_reg_unref pair_reg
  let val := st.get_reg_unref val_reg
  match pair with
  | Value.Pair handle =>
    match st.heap.setCdr handle val with
    | some hp => Except.ok { st with heap := hp }
    | none => Except.error (VMError.new_heap ("Pair is not mutable!"))
  | Value.Nil =>
    let alloc := st.heap.alloc_pair Value.Nil val
    Except.ok (VMState.set_register { st with heap := alloc.1 } pair_reg alloc.2)
  | Value.List _ _ => Except.error (VMError.new_vm ("XDR: Pair is read only."))
  | _ => Except.error (VMError.new_vm ("XDR: Not a pair/conscell."))

/-- The allocation loop of `Vm::list`: walk the register indices (already
reversed), consing each register's unref'd content onto the accumulator. -/
def Vm.listLoop (regs : List Value) : List Nat → Heap → Value → Heap × Value
  | [], hp, last_cdr => (hp, last_cdr)
  | i :: rest, hp, last_cdr =>
    let car := unref hp (regs.getD i Value.Undefined)
    let alloc := hp.alloc_pair car last_cdr
    Vm.listLoop regs rest alloc.1 alloc.2

/-- `Vm::list` (vm/src/vm/cons.rs lines 4-23), after operand decoding:
`LIST dst,start,end` stores `Nil` when `end < start`, else conses the
unref'd contents of registers `start..=end` (walked in reverse) into a
fresh pair chain and stores it in `dst`. -/
def Vm.list (st : VMState) (dest start fin : Nat) : VMState :=
  if fin < start then st.set_register dest Value.Nil
  else
    let idxs := (List.range' start (fin + 1 - start)).reverse
    let built := Vm.listLoop st.registers idxs st.heap Value.Nil
    VMState.set_register { st with heap := built.1 } dest built.2

/-- A value is a freshly built pair chain holding exactly `elems`, ending
in `Nil`, relative to a heap. -/
inductive ListOf (hp : Heap) : Value → List Value → Prop
  | nil : ListOf hp Value.Nil []
  | cons (h : Handle) (a : Value) (cdr : Value) (rest : List Value) :
      hp.getD h HeapObj.other = HeapObj.pr a cdr → ListOf hp cdr rest →
      ListOf hp (Value.Pair h) (a :: rest)

/-- Register-window well-formedness: every indirection cell held in a
register points inside the heap (the GC maintains this invariant; dangling
handles are a `:heap` error in the source). -/
def RegsWF (st : VMState) : Prop :=
  ∀ i h, st.registers.getD i Value.Undefined = Value.Value h → h < st.heap.length

/-! ## Arity validation (spec section 4.5, "Call semantics") -/

/-- Modelled from the spec: the VM's arity validation at function entry.
The dispatch/call sequence lives in the vm crate's interpreter module,
which is not under src/; the spec states: "Fail with an arity error if
`n < args`, or if `n > args+opt_args` and not `rest`." -/
def arity_check (args opt_args : Nat) (rest : Bool) (n : Nat) : Except VMError Unit :=
  if n < args then
    Except.error (VMError.new_arity ("not enough arguments"))
  else if args + opt_args < n ∧ rest = false then
    Except.error (VMError.new_arity ("too many arguments"))
  else
    Except.ok ()

/-! ## Chunks, compile state, `compile_call` and `compile_let` -/

/-- One bytecode instruction at the operand level.  The source encodes
these as packed bytes with an optional WIDE prefix; the embedding works at
the decoded level, keeping each opcode's operands. -/
inductive Instr where
  | CONST (dst k : Nat)
  | MOV (dst src : Nat)
  | SET (dst src : Nat)
  | BMOV (dst src n : Nat)
  | CLRREG (r : Nat)
  | DFRPOP
  | SRET (r : Nat)
  | JMPNU (r : Nat)
  | CALL (callee argc result : Nat)
  | TCALL (callee argc : Nat)
  | CLOSE (dst src : Nat)
deriving DecidableEq, Repr

/-- A compiled chunk: instruction stream and constants table (arity and
debug metadata omitted; the claims below do not touch them). -/
structure Chunk where
  code : List Instr
  constants : List Value
deriving DecidableEq, Repr

/-- Compiler state (`CompileState` of the compile_state crate, with the
fields the compiler sources under src/ use): target chunk, current symbol
table — kept abstract as a token standing for the `Rc<RefCell<Symbols>>`
pointer the source clones and restores — tail flag, defer counter, and
register high-water mark. -/
structure CompileState where
  chunk : Chunk
  symbols : Nat
  tail : Bool
  defers : Nat
  max_regs : Nat
deriving DecidableEq, Repr

/-- Modelled from the spec: `CompileState::add_constant` (compile_state
crate, not under src/) pushes a constant into the chunk's constants table
and returns its index. -/
def CompileState.add_constant (s : CompileState) (v : Value) : CompileState × Nat :=
  ({ s with chunk := { s.chunk with constants := s.chunk.constants ++ [v] } },
    s.chunk.constants.length)

/-- Append one instruction to the chunk's code (the `encode*` helpers of
the chunk, at the decoded-instruction level). -/
def CompileState.emit (s : CompileState) (ins : Instr) : CompileState :=
  { s with chunk := { s.chunk with code := s.chunk.code ++ [ins] } }

/-- The argument loop of `compile_params`: compile each argument into
consecutive registers starting at `reg`.  The general expression compiler
`compile` is recursive over all forms and is abstracted as the
`compileArg` parameter. -/
def compile_args (compileArg : CompileState → Value → Nat → Except VMError CompileState) :
    CompileState → List Value → Nat → Except VMError CompileState
  | s, [], _ => Except.ok s
  | s, r :: rest, reg =>
    match compileArg s r reg with
    | Except.error e => Except.error e
    | Except.ok s1 => compile_args compileArg s1 rest (reg + 1)

/-- `compile_params` (compiler/src/compile/compile_call.rs lines 5-22):
compile the arguments into consecutive registers; in tail position follow
them with one `BMOV 1, result, len` that moves the argument block down to
register 1. -/
def compile_params (compileArg : CompileState → Value → Nat → Except VMError CompileState)
    (s : CompileState) (cdr : List Value) (result : Nat) (tail : Bool) :
    Except VMError CompileState :=
  match compile_args compileArg s cdr result with
  | Except.error e => Except.error e
  | Except.ok s1 =>
    if tail then Except.ok (s1.emit (Instr.BMOV 1 result cdr.length))
    else Except.ok s1

/-- `compile_call` (compiler/src/compile/compile_call.rs lines 24-53):
reserve `b_reg` past the arguments, record the callable as a constant,
decide tail position as `state.tail && state.defers == 0`, clear
`state.tail`, compile the parameters, load the callable with `CONST`, and
finish with `TCALL` in tail position or `CALL` otherwise. -/
def compile_call (compileArg : CompileState → Value → Nat → Except VMError CompileState)
    (state : CompileState) (callable : Value) (cdr : List Value) (result : Nat) :
    Except VMError CompileState :=
  let b_reg := result + cdr.length + 1
  let state1 := if state.max_regs < b_reg then { state with max_regs := b_reg } else state
  let cres := state1.add_constant callable
  let const_i := cres.2
  let tail := cres.1.tail && cres.1.defers == 0
  let state2 := { cres.1 with tail := false }
  match compile_params compileArg state2 cdr (result + 1) tail with
  | Except.error e => Except.error e
  | Except.ok s1 =>
    let s2 := s1.emit (Instr.CONST b_reg const_i)
    if tail then Except.ok (s2.emit (Instr.TCALL b_reg cdr.length))
    else Except.ok (s2.emit (Instr.CALL b_reg cdr.length result))

/-- `compile_let` (compiler/src/compile/compile_let.rs lines 149-169): on
empty `cdr` report a compile error without touching the state; otherwise
save `symbols`, `tail` and `defers`, clear `tail`, run `let_inner`, and
restore the three saved fields whether `let_inner` returned `Ok` or `Err`.
`let_inner` recursively invokes the general compiler, so it is abstracted
here as an arbitrary state transformer parameter. -/
def compile_let
    (let_inner : CompileState → List Value → Nat → Bool → Except VMError Unit × CompileState)
    (state : CompileState) (cdr : List Value) (result : Nat) :
    Except VMError Unit × CompileState :=
  if cdr.isEmpty then
    (Except.error (VMError.new_compile ("Too few arguments, need at least 1 got 0.")), state)
  else
    let old_symbols := state.symbols
    let old_tail := state.tail
    let state1 := { state with tail := false }
    let old_defers := state1.defers
    let inner_out := let_inner state1 cdr result old_tail
    (inner_out.1,
      { inner_out.2 with tail := old_tail, symbols := old_symbols, defers := old_defers })

/-! ## Globals, properties, and the get-prop/set-prop builtins -/

/-- Association-list lookup (the embedding of `HashMap::get`). -/
def mapLookup {K V : Type} [DecidableEq K] : List (K × V) → K → Option V
  | [], _ => none
  | (k0, v0) :: t, k => if k0 = k then some v0 else mapLookup t k

/-- Association-list insert-or-replace (the embedding of `HashMap::insert`). -/
def mapInsert {K V : Type} [DecidableEq K] : List (K × V) → K → V → List (K × V)
  | [], k, v => [(k, v)]
  | (k0, v0) :: t, k, v => if k0 = k then (k, v) :: t else (k0, v0) :: mapInsert t k v

/-- `Globals` (vm/src/value.rs lines 107-175): the global slot values and
the per-slot attribute maps (`props`), with hash maps rendered as
association lists. -/
structure Globals where
  objects : List Value
  props : List (Nat × List (Interned × Value))
deriving DecidableEq, Repr

/-- `Globals::new` (vm/src/value.rs). -/
def Globals.new : Globals := ⟨[], []⟩

/-- `Globals::get_property` (vm/src/value.rs lines 156-163). -/
def Globals.get_property (g : Globals) (global : Nat) (prop : Interned) : Option Value :=
  match mapLookup g.props global with
  | some map =>
    match mapLookup map prop with
    | some val => some val
    | none => none
  | none => none

/-- `Globals::set_property` (vm/src/value.rs lines 165-174): insert into
the slot's existing attribute map, or create a fresh one-entry map. -/
def Globals.set_property (g : Globals) (global : Nat) (prop : Interned) (value : Value) :
    Globals :=
  match mapLookup g.props global with
  | some map => { g with props := mapInsert g.props global (mapInsert map prop value) }
  | none => { g with props := mapInsert g.props global [(prop, value)] }

/-- The slice of `SloshVm` the property builtins use: the globals table,
the intern-to-slot table, and the per-heap-object attribute maps.  The
slot and heap-property plumbing lives in the compile_state crate (not
under src/); modelled from the spec ("Globals: process-wide table indexed
by an interned symbol id through a slot table", "otherwise into the heap
object's attribute table"). -/
structure SloshVm where
  globals : Globals
  slots : List (Interned × Nat)
  heapProps : List (Value × List (Interned × Value))
deriving DecidableEq, Repr

/-- Modelled from the spec: `global_intern_slot` resolves an interned
symbol to its global slot, when bound. -/
def SloshVm.global_intern_slot (vm : SloshVm) (si : Interned) : Option Nat :=
  mapLookup vm.slots si

/-- `get_global_property`: read a slot's attribute through `Globals`. -/
def SloshVm.get_global_property (vm : SloshVm) (idx : Nat) (key : Interned) : Option Value :=
  vm.globals.get_property idx key

/-- `set_global_property`: write a slot's attribute through `Globals`. -/
def SloshVm.set_global_property (vm : SloshVm) (idx : Nat) (key : Interned) (val : Value) :
    SloshVm :=
  { vm with globals := vm.globals.set_property idx key val }

/-- Modelled from the spec: heap-object attribute read. -/
def SloshVm.get_heap_property_interned (vm : SloshVm) (obj : Value) (key : Interned) :
    Option Value :=
  match mapLookup vm.heapProps obj with
  | some m => mapLookup m key
  | none => none

/-- Modelled from the spec: heap-object attribute write. -/
def SloshVm.set_heap_property_interned (vm : SloshVm) (obj : Value) (key : Interned)
    (val : Value) : SloshVm :=
  match mapLookup vm.heapProps obj with
  | some m => { vm with heapProps := mapInsert vm.heapProps obj (mapInsert m key val) }
  | none => { vm with heapProps := mapInsert vm.heapProps obj [(key, val)] }

/-- The key extraction both builtins perform on `registers[1]`: it must be
a keyword or a symbol (builtins/src/lib.rs). -/
def prop_key (v : Value) : Option Interned :=
  match v with
  | Value.Keyword key => some key
  | Value.Symbol key => some key
  | _ => none

/-- `get_prop` (builtins/src/lib.rs lines 8-33): exactly two arguments; a
symbol with a global slot reads the globals' attribute table (defaulting
to `Nil`), a symbol without a slot is an error, anything else reads the
heap object's attribute table. -/
def get_prop (vm : SloshVm) (registers : List Value) : Except VMError Value :=
  if registers.length ≠ 2 then
    Except.error (VMError.new_vm ("get-prop: Invalid arguments (object symbol)"))
  else
    match prop_key (registers.getD 1 Value.Undefined) with
    | none => Except.error (VMError.new_vm ("get-prop: key must be a keywork or symbol"))
    | some key =>
      match registers.getD 0 Value.Undefined with
      | Value.Symbol si =>
        match vm.global_intern_slot si with
        | some idx => Except.ok ((vm.get_global_property idx key).getD Value.Nil)
        | none =>
          Except.error (VMError.new_vm ("get-prop: Not a heap object or global symbol"))
      | obj => Except.ok ((vm.get_heap_property_interned obj key).getD Value.Nil)

/-- `set_prop` (builtins/src/lib.rs lines 35-59): exactly three arguments;
stores into the globals' attribute table for a slot-bound symbol, into the
heap object's table otherwise, and returns the stored value. -/
def set_prop (vm : SloshVm) (registers : List Value) : Except VMError (SloshVm × Value) :=
  if registers.length ≠ 3 then
    Except.error (VMError.new_vm ("set-prop: Invalid arguments (object symbol value)"))
  else
    match prop_key (registers.getD 1 Value.Undefined) with
    | none => Except.error (VMError.new_vm ("set-prop: key must be a keyword or symbol"))
    | some key =>
      match registers.getD 0 Value.Undefined with
      | Value.Symbol si =>
        match vm.global_intern_slot si with
        | some idx =>
          Except.ok (vm.set_global_property idx key (registers.getD 2 Value.Undefined),
            registers.getD 2 Value.Undefined)
        | none =>
          Except.error (VMError.new_vm ("set-prop: Not a heap object or global symbol"))
      | obj =>
        Except.ok (vm.set_heap_property_interned obj key (registers.getD 2 Value.Undefined),
          registers.getD 2 Value.Undefined)

/-! ## f32 arithmetic for `F32Wrap` (core_types/src/value.rs lines 9-25)

Every finite binary32 value is an integer multiple of `2^-149`, so finite
f32 values are embedded exactly as scaled integers (the value times
`2^149`).  Subtraction of finite floats is the round-to-nearest-even of
the exact difference back onto the binary32 grid, and comparisons of
finite floats agree with comparisons of the scaled integers.  Bit
patterns with exponent byte 255 — infinities and NaNs — are handled
explicitly: subtraction propagates NaN (and turns same-signed infinities
into NaN), and any comparison involving a NaN is false, as in Rust. -/

/-- The value a finite binary32 bit pattern denotes, in units of `2^-149`:
subnormals are `frac`, normals `(2^23 + frac) * 2^(biasedExp - 1)`.  On
the exponent-255 patterns the same formula serves as an order witness:
the infinity patterns land beyond every finite value of their sign (NaN
operands never reach a scaled comparison, see `f32lt`). -/
def F32.toScaled (x : F32) : Int :=
  let mag : Int :=
    if x.biasedExp = 0 then (x.frac : Int)
    else ((2 ^ 23 + x.frac : Nat) : Int) * 2 ^ (x.biasedExp - 1)
  if x.sign then -mag else mag

/-- `f32::to_bits`: the 32-bit pattern as a number. -/
def F32.toBits (x : F32) : Nat :=
  (if x.sign then 2 ^ 31 else 0) + x.biasedExp * 2 ^ 23 + x.frac

/-- A structurally valid bit pattern: exponent byte and 23-bit fraction in
range.  This includes the exponent-255 patterns (infinities and NaNs) —
hashing covers them, while the equality characterization below treats
them through `isFinite` and `isNan`. -/
def F32.valid (x : F32) : Prop := x.biasedExp < 256 ∧ x.frac < 2 ^ 23

/-- A finite pattern: the exponent byte is not 255. -/
def F32.isFinite (x : F32) : Prop := x.biasedExp < 255

/-- A NaN pattern: exponent byte 255 with a non-zero fraction. -/
def F32.isNan (x : F32) : Bool := (x.biasedExp == 255) && !(x.frac == 0)

/-- An infinity pattern: exponent byte 255 with fraction zero. -/
def F32.isInf (x : F32) : Bool := (x.biasedExp == 255) && (x.frac == 0)

/-- The quiet-NaN pattern arithmetic produces. -/
def F32_QNAN : F32 := ⟨false, 255, 2 ^ 22⟩

/-- Fuel-bounded binary logarithm (structural recursion, so concrete
evaluations reduce in the kernel). -/
def log2fuel : Nat → Nat → Nat
  | 0, _ => 0
  | fuel + 1, n => if 2 ≤ n then log2fuel fuel (n / 2) + 1 else 0

/-- Floor of the base-2 logarithm of a natural number. -/
def natLog2 (n : Nat) : Nat := log2fuel n n

/-- Round `a / 2^k` to the nearest integer, ties to even. -/
def rneShift (a k : Nat) : Nat :=
  let q := a / 2 ^ k
  let r := a % 2 ^ k
  if 2 * r < 2 ^ k then q
  else if 2 ^ k < 2 * r then q + 1
  else if q % 2 = 0 then q else q + 1

/-- Round a scaled value (units of `2^-149`) to the nearest binary32
pattern, ties to even: scaled magnitudes below `2^24` sit on the grid
already (subnormals and the first normal binade); larger magnitudes keep a
24-bit significand; magnitudes beyond the largest finite float clamp to
the infinity pattern (all inputs used by the claims stay finite). -/
def roundScaled (d : Int) : F32 :=
  if d = 0 then ⟨false, 0, 0⟩
  else
    let sg : Bool := decide (d < 0)
    let a : Nat := d.natAbs
    if a < 2 ^ 23 then ⟨sg, 0, a⟩
    else if a < 2 ^ 24 then ⟨sg, 1, a - 2 ^ 23⟩
    else
      let e := natLog2 a
      let m := rneShift a (e - 23)
      let be := if m = 2 ^ 24 then e - 21 else e - 22
      let fr := if m = 2 ^ 24 then 0 else m - 2 ^ 23
      if 254 < be then ⟨sg, 255, 0⟩ else ⟨sg, be, fr⟩

/-- Rust `f32` subtraction: NaN operands (and same-signed infinities)
produce NaN, an infinite operand dominates, and finite operands take the
exact difference rounded back to the grid. -/
def f32sub (a b : F32) : F32 :=
  if a.isNan || b.isNan then F32_QNAN
  else if a.isInf && b.isInf then
    if a.sign == b.sign then F32_QNAN else a
  else if a.isInf then a
  else if b.isInf then ⟨!b.sign, 255, 0⟩
  else roundScaled (a.toScaled - b.toScaled)

/-- Rust `f32::abs`: clear the sign bit. -/
def f32abs (x : F32) : F32 := { x with sign := false }

/-- Rust `f32` `<`: false whenever a NaN is involved; otherwise compare
the denoted values (the scaling by `2^149` preserves order, infinities
included). -/
def f32lt (a b : F32) : Bool :=
  if a.isNan || b.isNan then false
  else decide (a.toScaled < b.toScaled)

/-- `f32::EPSILON = 2^-23` (bit pattern: biased exponent 104, fraction 0;
scaled value `2^126`). -/
def F32_EPSILON : F32 := ⟨false, 104, 0⟩

/-- `F32Wrap::eq` (core_types/src/value.rs lines 12-17), the equality
`Value::Float` inherits: `(self.0 - other.0).abs() < f32::EPSILON`. -/
def f32WrapEq (a b : F32) : Bool := f32lt (f32abs (f32sub a b)) F32_EPSILON

/-- `F32Wrap::hash` (core_types/src/value.rs lines 21-25): the hasher
receives exactly the bit pattern (`state.write_u32(self.0.to_bits())`). -/
def f32WrapHash (x : F32) : Nat := x.toBits

/-- Modelled from the spec: the unit in the last place at `x` — the grid
spacing of binary32 in the binade of `x`, in units of `2^-149`. -/
def F32.ulpScaled (x : F32) : Int :=
  if x.biasedExp = 0 then 1 else 2 ^ (x.biasedExp - 1)

/-- Modelled from the spec: "equal within one ULP (one unit in the last
place)" — the two values are at most one ULP apart. -/
def withinOneUlp (a b : F32) : Prop :=
  (((a.toScaled - b.toScaled).natAbs : Nat) : Int) ≤ F32.ulpScaled a

/-! ## Theorems -/

set_option maxRecDepth 2048 in
/-- Helper: for a byte-sized value, masking with `0x80` is non-zero exactly
when the value is at least 128 (the sign bit of the top byte). -/
theorem land_128_pos : ∀ x < 256, (0 < x &&& 128 ↔ 128 ≤ x) := by decide

/-- C7: signed 56-bit integer round-trip.  For every `i64` value `i` with
`INT_MIN ≤ i ≤ INT_MAX` (that is `-(2^55) ≤ i ≤ 2^55 - 1`), `from_i56`
applied to the 7-byte array produced by `to_i56 i` returns `i`. -/
theorem i56_round_trip (i : Int) (h1 : INT_MIN ≤ i) (h2 : i ≤ INT_MAX) :
    ∀ arr, to_i56 i = Value.Int arr → from_i56 arr = i := by
  intro arr harr
  have hmin : -(2 ^ 55) ≤ i := h1
  have hmax : i ≤ 2 ^ 55 - 1 := h2
  have hni : i % (2 ^ 64) = i ∨ i % (2 ^ 64) = i + 2 ^ 64 := by omega
  set m : Nat := (i % (2 ^ 64)).toNat with hm
  have hmi : (m : Int) = i ∨ (m : Int) = i + 2 ^ 64 := by omega
  have hmlt : m < 2 ^ 64 := by omega
  simp only [to_i56, u64_to_be_bytes, List.drop, Value.Int.injEq] at harr
  subst harr
  have hhead :
      ([m / 2 ^ 48 % 256, m / 2 ^ 40 % 256, m / 2 ^ 32 % 256, m / 2 ^ 24 % 256,
        m / 2 ^ 16 % 256, m / 2 ^ 8 % 256, m % 256].headD 0) = m / 2 ^ 48 % 256 := rfl
  rw [from_i56, hhead]
  have h128 := land_128_pos (m / 2 ^ 48 % 256) (by omega)
  have d1 : m / 2 ^ 48 % 256 * 2 ^ 48 + m % 2 ^ 48 = m % 2 ^ 56 := by norm_num; omega
  have d2 : m / 2 ^ 40 % 256 * 2 ^ 40 + m % 2 ^ 40 = m % 2 ^ 48 := by norm_num; omega
  have d3 : m / 2 ^ 32 % 256 * 2 ^ 32 + m % 2 ^ 32 = m % 2 ^ 40 := by norm_num; omega
  have d4 : m / 2 ^ 24 % 256 * 2 ^ 24 + m % 2 ^ 24 = m % 2 ^ 32 := by norm_num; omega
  have d5 : m / 2 ^ 16 % 256 * 2 ^ 16 + m % 2 ^ 16 = m % 2 ^ 24 := by norm_num; omega
  have d6 : m / 2 ^ 8 % 256 * 2 ^ 8 + m % 256 = m % 2 ^ 16 := by norm_num; omega
  by_cases hsign : 128 ≤ m / 2 ^ 48 % 256
  · have hs56 : 2 ^ 55 ≤ m % 2 ^ 56 := by rw [← d1]; norm_num; omega
    rw [if_pos (h128.mpr hsign)]
    simp only [i64_from_be_bytes, List.foldl]
    generalize hq1 : m / 2 ^ 48 = q1 at *
    generalize hq2 : m / 2 ^ 40 = q2 at *
    generalize hq3 : m / 2 ^ 32 = q3 at *
    generalize hq4 : m / 2 ^ 24 = q4 at *
    generalize hq5 : m / 2 ^ 16 = q5 at *
    generalize hq6 : m / 2 ^ 8 = q6 at *
    norm_num only at d1 d2 d3 d4 d5 d6 hs56 hmlt hmi hmin hmax ⊢
    split
    · omega
    · omega
  · have hs56 : m % 2 ^ 56 < 2 ^ 55 := by rw [← d1]; norm_num; omega
    rw [if_neg (fun hc => hsign (h128.mp hc))]
    simp only [i64_from_be_bytes, List.foldl]
    generalize hq1 : m / 2 ^ 48 = q1 at *
    generalize hq2 : m / 2 ^ 40 = q2 at *
    generalize hq3 : m / 2 ^ 32 = q3 at *
    generalize hq4 : m / 2 ^ 24 = q4 at *
    generalize hq5 : m / 2 ^ 16 = q5 at *
    generalize hq6 : m / 2 ^ 8 = q6 at *
    norm_num only at d1 d2 d3 d4 d5 d6 hs56 hmlt hmi hmin hmax ⊢
    split
    · omega
    · omega

/-- Witness for C7 at the concrete input `i = -5`. -/
theorem i56_round_trip_witness :
    (INT_MIN ≤ (-5 : Int) ∧ (-5 : Int) ≤ INT_MAX) ∧
      (∀ arr, to_i56 (-5) = Value.Int arr → from_i56 arr = -5) :=
  ⟨⟨by norm_num [INT_MIN], by norm_num [INT_MAX]⟩,
    i56_round_trip (-5) (by norm_num [INT_MIN]) (by norm_num [INT_MAX])⟩

/-- C2: arity validation passes exactly when `args ≤ n ≤ args+opt_args`, or
`n ≥ args` when `rest` is set; for every other `n` the call fails with an
error of kind `:arity`. -/
theorem arity_check_spec (args opt_args n : Nat) (rest : Bool) :
    (arity_check args opt_args rest n = Except.ok () ↔
      (args ≤ n ∧ n ≤ args + opt_args) ∨ (rest = true ∧ args ≤ n)) ∧
    (∀ e, arity_check args opt_args rest n = Except.error e → e.key = "arity") := by
  constructor
  · unfold arity_check
    cases rest <;> split_ifs <;> simp_all
  · intro e he
    unfold arity_check at he
    split_ifs at he
    · injection he with h
      rw [← h]
      rfl
    · injection he with h
      rw [← h]
      rfl

/-- Witness for C2: a two-required one-optional lambda accepts 2 arguments
and rejects 4 with an `:arity` error. -/
theorem arity_check_spec_witness :
    arity_check 2 1 false 2 = Except.ok () ∧
      (∀ e, arity_check 2 1 false 4 = Except.error e → e.key = "arity") :=
  ⟨(arity_check_spec 2 1 2 false).1.mpr (Or.inl (by decide)),
    (arity_check_spec 2 1 4 false).2⟩

/-- C10: `compile_let` leaves the compile state's scope and flags
unchanged: whatever `let_inner` does (and whether it returns `Ok` or a
compile error), on return `symbols`, `tail` and `defers` hold exactly
their entry values, and the returned state can differ from the entry
state only in `chunk` and `max_regs`. -/
theorem compile_let_preserves_frame
    (let_inner : CompileState → List Value → Nat → Bool → Except VMError Unit × CompileState)
    (state : CompileState) (cdr : List Value) (result : Nat) :
    (compile_let let_inner state cdr result).2.symbols = state.symbols ∧
    (compile_let let_inner state cdr result).2.tail = state.tail ∧
    (compile_let let_inner state cdr result).2.defers = state.defers ∧
    (compile_let let_inner state cdr result).2 =
      { state with
          chunk := (compile_let let_inner state cdr result).2.chunk,
          max_regs := (compile_let let_inner state cdr result).2.max_regs } := by
  unfold compile_let
  split
  · exact ⟨rfl, rfl, rfl, rfl⟩
  · exact ⟨rfl, rfl, rfl, rfl⟩

/-- Witness for C10 at a concrete `let_inner` that emits an instruction,
bumps `max_regs`, mutates every saved field and fails. -/
theorem compile_let_preserves_frame_witness :
    (compile_let
        (fun s _ _ _ =>
          (Except.error (VMError.new_vm ("boom")),
            { chunk := { code := [Instr.DFRPOP], constants := [] },
              symbols := s.symbols + 7, tail := true, defers := s.defers + 3,
              max_regs := 99 }))
        { chunk := { code := [], constants := [] },
          symbols := 1, tail := true, defers := 0, max_regs := 4 }
        [Value.Nil] 0).2.symbols = 1 :=
  (compile_let_preserves_frame _ _ _ _).1

/-- Helper: reading any in-range index of a replicated list yields the
replicated element. -/
theorem getD_replicate_of_lt (n : Nat) (a d : Value) :
    ∀ i, i < n → (List.replicate n a).getD i d = a := by
  induction n with
  | zero => intro i hi; omega
  | succ n ih =>
    intro i hi
    cases i with
    | zero => rfl
    | succ i =>
      rw [List.replicate_succ, List.getD_cons_succ]
      exact ih i (by omega)

/-- C4 counterexample: over a heap vector of length 65537, the `List` view
at `start = 65535` satisfies `start + 1 < n`, yet `get_pair` returns the
cdr `List(h, 0)` — the u16 start field wraps — instead of the claimed
`List(h, start+1) = List(h, 65536)`. -/
theorem get_pair_u16_wrap_counterexample :
    get_pair [HeapObj.vec (List.replicate 65537 Value.True)] (Value.List 0 65535) =
      some (Value.True, Value.List 0 0) ∧
    65535 + 1 < (Heap.getVector [HeapObj.vec (List.replicate 65537 Value.True)] 0).length ∧
    Value.List 0 0 ≠ Value.List 0 65536 := by
  refine ⟨?_, ?_, by simp⟩
  · simp only [get_pair, Heap.getVector, List.getD_cons_zero, List.length_replicate]
    rw [getD_replicate_of_lt 65537 Value.True Value.Nil 65535 (by norm_num)]
    norm_num
  · simp only [Heap.getVector, List.getD_cons_zero, List.length_replicate]
    norm_num

/-- C4 amended: for every `List(h, start)` value whose incremented start
index still fits the u16 field (`start + 1 < 2^16`), `get_pair` returns
`some (car, cdr)` with `car` the vector element at `start` when
`start < n` and `Nil` otherwise, and `cdr = List(h, start+1)` when
`start + 1 < n` and `Nil` otherwise; at `start = 2^16 - 1` the stored cdr
index instead wraps to 0. -/
theorem get_pair_list_view (hp : Heap) (h : Handle) (start : Nat)
    (hs : start + 1 < 2 ^ 16) :
    get_pair hp (Value.List h start) =
      some (if start < (hp.getVector h).length
              then (hp.getVector h).getD start Value.Nil else Value.Nil,
            if start + 1 < (hp.getVector h).length
              then Value.List h (start + 1) else Value.Nil) := by
  simp only [get_pair]
  rw [Nat.mod_eq_of_lt hs]

/-- Witness for C4 (amended) on a two-element vector viewed from start 0. -/
theorem get_pair_list_view_witness :
    get_pair [HeapObj.vec [Value.True, Value.False]] (Value.List 0 0) =
      some (Value.True, Value.List 0 1) := by
  have := get_pair_list_view [HeapObj.vec [Value.True, Value.False]] 0 0 (by norm_num)
  simpa [Heap.getVector] using this

/-- Helper: `is_nil` answers true exactly on `Nil`. -/
theorem is_nil_iff (v : Value) : is_nil v = true ↔ v = Value.Nil := by
  cases v <;> simp [is_nil]

/-- C9 counterexample: the glossary defines a proper list as "either `Nil`
or a pair whose cdr is a proper list", but `is_proper_list` answers false
on `Nil` (deliberately: the source comment reads "does not detect empty
(nil) lists on purpose"). -/
theorem is_proper_list_nil_counterexample :
    is_proper_list [] 1 Value.Nil = false ∧ SpecProperList [] Value.Nil :=
  ⟨rfl, SpecProperList.nil⟩

/-- C9 amended: `is_proper_list` returns true (for some recursion bound,
i.e. when the Rust recursion terminates with true) exactly when the value
is a `List` view, or a pair whose cdr is `Nil`, or a pair whose non-nil
cdr is again such a value; `Nil` itself is rejected. -/
theorem is_proper_list_characterization (hp : Heap) (v : Value) :
    (∃ fuel, is_proper_list hp fuel v = true) ↔ CodeProperList hp v := by
  constructor
  · rintro ⟨fuel, hf⟩
    induction fuel generalizing v with
    | zero => exact absurd hf (by simp [is_proper_list])
    | succ n ih =>
      unfold is_proper_list at hf
      split at hf
      · rename_i h
        by_cases hnil : is_nil (hp.getPair h).2 = true
        · exact CodeProperList.pairNil h ((is_nil_iff _).mp hnil)
        · rw [if_neg hnil] at hf
          exact CodeProperList.pairStep h
            (fun hc => hnil ((is_nil_iff _).mpr hc)) (ih _ hf)
      · rename_i h s
        exact CodeProperList.listView h s
      · exact absurd hf (by simp)
  · intro hc
    induction hc with
    | listView h s => exact ⟨1, rfl⟩
    | pairNil h hcdr =>
      refine ⟨1, ?_⟩
      simp only [is_proper_list]
      rw [if_pos ((is_nil_iff _).mpr hcdr)]
    | pairStep h hne hcdr ih =>
      obtain ⟨f, hf⟩ := ih
      refine ⟨f + 1, ?_⟩
      simp only [is_proper_list]
      rw [if_neg (fun hc => hne ((is_nil_iff _).mp hc))]
      exact hf

/-- Witness for C9 (amended): a single pair `(true . nil)` is recognized. -/
theorem is_proper_list_characterization_witness :
    ∃ fuel, is_proper_list [HeapObj.pr Value.True Value.Nil] fuel (Value.Pair 0) = true :=
  (is_proper_list_characterization [HeapObj.pr Value.True Value.Nil] (Value.Pair 0)).mpr
    (CodeProperList.pairNil 0 rfl)

/-- C5: XAR/XDR mutation semantics.  On a register holding (possibly
through a box) a `Pair`, XAR (resp. XDR) overwrites that pair's car
(resp. cdr) in place, leaving the registers untouched; on a `List` view
it returns a `:vm` error (the state is discarded, nothing changes); on a
register holding `Nil` it stores a freshly allocated pair `(val . nil)`
(resp. `(nil . val)`) into that register without error. -/
theorem xar_xdr_semantics (st : VMState) (preg vreg : Nat) :
    (∀ h a d, st.get_reg_unref preg = Value.Pair h →
        st.heap.getD h HeapObj.other = HeapObj.pr a d →
        Vm.xar st preg vreg =
          Except.ok { st with
            heap := st.heap.set h (HeapObj.pr (st.get_reg_unref vreg) d) }) ∧
    (∀ h s, st.get_reg_unref preg = Value.List h s →
        Vm.xar st preg vreg = Except.error (VMError.new_vm ("XAR: Pair is read only."))) ∧
    (st.registers.getD preg Value.Undefined = Value.Nil →
        Vm.xar st preg vreg =
          Except.ok { registers := st.registers.set preg (Value.Pair st.heap.length),
                      heap := st.heap ++ [HeapObj.pr (st.get_reg_unref vreg) Value.Nil] }) ∧
    (∀ h a d, st.get_reg_unref preg = Value.Pair h →
        st.heap.getD h HeapObj.other = HeapObj.pr a d →
        Vm.xdr st preg vreg =
          Except.ok { st with
            heap := st.heap.set h (HeapObj.pr a (st.get_reg_unref vreg)) }) ∧
    (∀ h s, st.get_reg_unref preg = Value.List h s →
        Vm.xdr st preg vreg = Except.error (VMError.new_vm ("XDR: Pair is read only."))) ∧
    (st.registers.getD preg Value.Undefined = Value.Nil →
        Vm.xdr st preg vreg =
          Except.ok { registers := st.registers.set preg (Value.Pair st.heap.length),
                      heap := st.heap ++ [HeapObj.pr Value.Nil (st.get_reg_unref vreg)] }) := by
  refine ⟨?_, ?_, ?_, ?_, ?_, ?_⟩
  · intro h a d hpair hheap
    simp only [Vm.xar, hpair, Heap.setCar, hheap]
  · intro h s hlist
    simp only [Vm.xar, hlist]
  · intro hnil
    have hunref : st.get_reg_unref preg = Value.Nil := by
      simp only [VMState.get_reg_unref, hnil, unref]
    simp only [Vm.xar, hunref, Heap.alloc_pair, VMState.set_register, hnil]
  · intro h a d hpair hheap
    simp only [Vm.xdr, hpair, Heap.setCdr, hheap]
  · intro h s hlist
    simp only [Vm.xdr, hlist]
  · intro hnil
    have hunref : st.get_reg_unref preg = Value.Nil := by
      simp only [VMState.get_reg_unref, hnil, unref]
    simp only [Vm.xdr, hunref, Heap.alloc_pair, VMState.set_register, hnil]

/-- Witness for C5: concrete XAR pair mutation, XDR rejection of a `List`
view, and XAR promotion of `Nil`. -/
theorem xar_xdr_semantics_witness :
    Vm.xar ⟨[Value.Pair 0, Value.True], [HeapObj.pr Value.False Value.Nil]⟩ 0 1 =
      Except.ok ⟨[Value.Pair 0, Value.True], [HeapObj.pr Value.True Value.Nil]⟩ ∧
    Vm.xdr ⟨[Value.List 0 0], [HeapObj.vec []]⟩ 0 0 =
      Except.error (VMError.new_vm ("XDR: Pair is read only.")) ∧
    Vm.xar ⟨[Value.Nil, Value.Byte 5], []⟩ 0 1 =
      Except.ok ⟨[Value.Pair 0, Value.Byte 5], [HeapObj.pr (Value.Byte 5) Value.Nil]⟩ := by
  refine ⟨?_, ?_, ?_⟩
  · have := (xar_xdr_semantics ⟨[Value.Pair 0, Value.True],
        [HeapObj.pr Value.False Value.Nil]⟩ 0 1).1 0 Value.False Value.Nil rfl rfl
    simpa using this
  · exact (xar_xdr_semantics ⟨[Value.List 0 0], [HeapObj.vec []]⟩ 0 0).2.2.2.2.1 0 0 rfl
  · have := (xar_xdr_semantics ⟨[Value.Nil, Value.Byte 5], []⟩ 0 1).2.2.1 rfl
    simpa using this

/-- Helper: `set_register` on a register that does not hold an indirection
cell is a plain register store. -/
theorem set_register_not_box (st : VMState) (i : Nat) (v : Value)
    (hr : ∀ h, st.registers.getD i Value.Undefined ≠ Value.Value h) :
    VMState.set_register st i v = { st with registers := st.registers.set i v } := by
  unfold VMState.set_register
  cases hv : st.registers.getD i Value.Undefined <;> first
    | rfl
    | exact absurd hv (by rename_i h; exact hr h)

/-- Helper: reading a list's default-valued element ignores an appended
suffix while the index is in range of the base list. -/
theorem getD_append_of_lt (l ext : List HeapObj) (i : Nat) (d : HeapObj)
    (hi : i < l.length) : (l ++ ext).getD i d = l.getD i d := by
  induction l generalizing i with
  | nil => exact absurd hi (by simp)
  | cons a t ih =>
    cases i with
    | zero => rfl
    | succ i => simpa using ih i (by simpa using hi)

/-- Helper: reading past the end of a list yields the default. -/
theorem getD_of_len_le {α : Type} (l : List α) (i : Nat) (d : α)
    (hi : l.length ≤ i) : l.getD i d = d := by
  induction l generalizing i with
  | nil => rfl
  | cons a t ih =>
    cases i with
    | zero => exact absurd hi (by simp)
    | succ i => simpa using ih i (by simpa using hi)

/-- Helper: reading the element just past a list, after appending it. -/
theorem getD_snoc_length (l : List HeapObj) (x d : HeapObj) :
    (l ++ [x]).getD l.length d = x := by
  induction l with
  | nil => rfl
  | cons a t ih => simpa using ih

/-- Helper: `unref` ignores heap growth when the value's cell handle is
inside the base heap. -/
theorem unref_append (hp ext : Heap) (v : Value)
    (hv : ∀ h, v = Value.Value h → h < hp.length) :
    unref (hp ++ ext) v = unref hp v := by
  cases v <;> try rfl
  rename_i h
  have hlt : h < hp.length := hv h rfl
  simp only [unref, Heap.getValue, getD_append_of_lt hp ext h HeapObj.other hlt]

/-- Helper: a pair chain survives heap growth. -/
theorem ListOf_append (hp ext : Heap) (v : Value) (l : List Value)
    (hl : ListOf hp v l) : ListOf (hp ++ ext) v l := by
  induction hl with
  | nil => exact ListOf.nil
  | cons h a cdr rest hdef htail ih =>
    have hlt : h < hp.length := by
      rcases Nat.lt_or_ge h hp.length with hlt | hge
      · exact hlt
      · rw [getD_of_len_le hp h HeapObj.other hge] at hdef
        exact HeapObj.noConfusion hdef
    exact ListOf.cons h a cdr rest
      (by rw [getD_append_of_lt hp ext h HeapObj.other hlt]; exact hdef) ih

/-- Helper: the `Vm::list` allocation loop only appends to the heap and
produces a pair chain holding the unref'd register contents of the index
list, reversed, in front of the accumulator's elements. -/
theorem listLoop_spec (regs : List Value) (hp0 : Heap)
    (hwf : ∀ i h, regs.getD i Value.Undefined = Value.Value h → h < hp0.length) :
    ∀ idxs (hp : Heap) (acc : Value) (accElems : List Value),
      (∃ ext0, hp = hp0 ++ ext0) → ListOf hp acc accElems →
      ∃ ext v, Vm.listLoop regs idxs hp acc = (hp ++ ext, v) ∧
        ListOf (hp ++ ext) v
          ((idxs.reverse.map (fun i => unref hp0 (regs.getD i Value.Undefined))) ++ accElems) := by
  intro idxs
  induction idxs with
  | nil =>
    intro hp acc accElems hext hacc
    exact ⟨[], acc, by simp [Vm.listLoop], by simpa using hacc⟩
  | cons i rest ih =>
    intro hp acc accElems hext hacc
    obtain ⟨ext0, hext0⟩ := hext
    have hcar : unref hp (regs.getD i Value.Undefined) =
        unref hp0 (regs.getD i Value.Undefined) := by
      subst hext0
      exact unref_append hp0 ext0 _ (fun h hv => hwf i h hv)
    have hacc2 : ListOf (hp ++ [HeapObj.pr (unref hp (regs.getD i Value.Undefined)) acc])
        (Value.Pair hp.length)
        (unref hp0 (regs.getD i Value.Undefined) :: accElems) := by
      rw [← hcar]
      exact ListOf.cons hp.length _ acc accElems
        (getD_snoc_length hp _ HeapObj.other) (ListOf_append hp _ acc accElems hacc)
    obtain ⟨ext1, v, hrun, hlist⟩ :=
      ih (hp ++ [HeapObj.pr (unref hp (regs.getD i Value.Undefined)) acc])
        (Value.Pair hp.length)
        (unref hp0 (regs.getD i Value.Undefined) :: accElems)
        ⟨ext0 ++ [HeapObj.pr (unref hp (regs.getD i Value.Undefined)) acc],
          by rw [hext0, List.append_assoc]⟩
        hacc2
    refine ⟨[HeapObj.pr (unref hp (regs.getD i Value.Undefined)) acc] ++ ext1, v, ?_, ?_⟩
    · simp only [Vm.listLoop, Heap.alloc_pair]
      rw [hrun, List.append_assoc]
    · have : (i :: rest).reverse.map
          (fun j => unref hp0 (regs.getD j Value.Undefined)) ++ accElems =
          rest.reverse.map (fun j => unref hp0 (regs.getD j Value.Undefined)) ++
            (unref hp0 (regs.getD i Value.Undefined) :: accElems) := by
        simp
      rw [this, ← List.append_assoc]
      exact hlist

/-- C6 counterexample: with `dst` inside `[start, end]` (here all three are
register 0), the LIST opcode does modify a source register — it receives
the result — so "no source register is modified" fails as stated. -/
theorem list_modifies_source_register_counterexample :
    (Vm.list ⟨[Value.Byte 1], []⟩ 0 0 0).registers.getD 0 Value.Undefined =
        Value.Pair 0 ∧
      (VMState.mk [Value.Byte 1] []).registers.getD 0 Value.Undefined = Value.Byte 1 ∧
      Value.Pair 0 ≠ Value.Byte 1 := by
  refine ⟨rfl, rfl, by simp⟩

/-- C6 amended: `LIST dst,start,end` (for a well-formed register window
with `dst` not holding an indirection cell) stores `Nil` into `dst` when
`end < start`; otherwise it extends the heap with freshly allocated pairs
and stores into `dst` a proper chain of those pairs ending in `Nil` whose
elements are the unref'd contents of registers `start..end` in order (read
before the store, so this holds even when `dst` lies in the range).  No
register other than `dst` is modified — but `dst` itself may be one of the
source registers. -/
theorem list_opcode_semantics (st : VMState) (dest start fin : Nat)
    (hwf : RegsWF st)
    (hdest : ∀ h, st.registers.getD dest Value.Undefined ≠ Value.Value h) :
    (fin < start →
      Vm.list st dest start fin =
        { st with registers := st.registers.set dest Value.Nil }) ∧
    (¬ fin < start →
      ∃ ext v,
        (Vm.list st dest start fin).heap = st.heap ++ ext ∧
        (Vm.list st dest start fin).registers = st.registers.set dest v ∧
        ListOf (st.heap ++ ext) v
          ((List.range' start (fin + 1 - start)).map
            (fun i => unref st.heap (st.registers.getD i Value.Undefined)))) := by
  constructor
  · intro hlt
    unfold Vm.list
    rw [if_pos hlt]
    exact set_register_not_box st dest Value.Nil hdest
  · intro hge
    obtain ⟨ext, v, hrun, hlist⟩ :=
      listLoop_spec st.registers st.heap hwf
        ((List.range' start (fin + 1 - start)).reverse) st.heap Value.Nil []
        ⟨[], by simp⟩ ListOf.nil
    have hmain : Vm.list st dest start fin =
        VMState.set_register { st with heap := st.heap ++ ext } dest v := by
      unfold Vm.list
      rw [if_neg hge]
      dsimp only
      rw [hrun]
    have hset : VMState.set_register { st with heap := st.heap ++ ext } dest v =
        { registers := st.registers.set dest v, heap := st.heap ++ ext } := by
      exact set_register_not_box { st with heap := st.heap ++ ext } dest v hdest
    rw [List.reverse_reverse, List.append_nil] at hlist
    exact ⟨ext, v, by rw [hmain, hset], by rw [hmain, hset], hlist⟩

/-- Witness for C6: `LIST 0,1,2` over registers `[nil, 7, 8]` extends the
heap with a fresh chain holding `(7 8)`, stores it in register 0 and
leaves registers 1 and 2 alone. -/
theorem list_opcode_semantics_witness :
    ∃ ext v,
      (Vm.list ⟨[Value.Nil, Value.Byte 7, Value.Byte 8], []⟩ 0 1 2).heap =
        ([] : Heap) ++ ext ∧
      (Vm.list ⟨[Value.Nil, Value.Byte 7, Value.Byte 8], []⟩ 0 1 2).registers =
        [Value.Nil, Value.Byte 7, Value.Byte 8].set 0 v ∧
      ListOf (([] : Heap) ++ ext) v
        ((List.range' 1 (2 + 1 - 1)).map
          (fun i => unref ([] : Heap)
            ([Value.Nil, Value.Byte 7, Value.Byte 8].getD i Value.Undefined))) := by
  have hwf : RegsWF ⟨[Value.Nil, Value.Byte 7, Value.Byte 8], []⟩ := by
    intro i h hv
    rcases i with _ | _ | _ | i
    · exact Value.noConfusion hv
    · exact Value.noConfusion hv
    · exact Value.noConfusion hv
    · rw [getD_of_len_le _ _ _ (by simp)] at hv
      exact Value.noConfusion hv
  exact (list_opcode_semantics ⟨[Value.Nil, Value.Byte 7, Value.Byte 8], []⟩ 0 1 2
    hwf (fun h hv => Value.noConfusion hv)).2 (by omega)

/-- Helper: looking up a just-inserted key returns the inserted value. -/
theorem mapLookup_mapInsert_self {K V : Type} [DecidableEq K]
    (m : List (K × V)) (k : K) (v : V) : mapLookup (mapInsert m k v) k = some v := by
  induction m with
  | nil => simp [mapInsert, mapLookup]
  | cons p t ih =>
    obtain ⟨k0, v0⟩ := p
    by_cases hk : k0 = k
    · simp [mapInsert, hk, mapLookup]
    · simp [mapInsert, hk, mapLookup, ih]

/-- Helper: inserting under a different key leaves a lookup unchanged. -/
theorem mapLookup_mapInsert_ne {K V : Type} [DecidableEq K]
    (m : List (K × V)) (k k2 : K) (v : V) (hne : k ≠ k2) :
    mapLookup (mapInsert m k v) k2 = mapLookup m k2 := by
  induction m with
  | nil => simp [mapInsert, mapLookup, hne]
  | cons p t ih =>
    obtain ⟨k0, v0⟩ := p
    by_cases hk : k0 = k
    · subst hk
      simp [mapInsert, mapLookup, hne]
    · simp [mapInsert, hk, mapLookup, ih]

/-- Helper: a just-set global property reads back. -/
theorem get_property_after_set (g : Globals) (idx : Nat) (k : Interned) (v : Value) :
    (g.set_property idx k v).get_property idx k = some v := by
  cases hm : mapLookup g.props idx with
  | some map =>
    simp [Globals.set_property, Globals.get_property, hm, mapLookup_mapInsert_self]
  | none =>
    simp [Globals.set_property, Globals.get_property, hm, mapLookup_mapInsert_self,
      mapLookup]

/-- Helper: setting some other (slot, key) pair does not affect a
property. -/
theorem get_property_set_other (g : Globals) (idx g2 : Nat) (k p2 : Interned) (v : Value)
    (hne : ¬ (g2 = idx ∧ p2 = k)) :
    (g.set_property g2 p2 v).get_property idx k = g.get_property idx k := by
  by_cases hg : g2 = idx
  · subst hg
    have hp : p2 ≠ k := fun hc => hne ⟨rfl, hc⟩
    cases hm : mapLookup g.props g2 with
    | some map =>
      simp [Globals.set_property, Globals.get_property, hm, mapLookup_mapInsert_self,
        mapLookup_mapInsert_ne _ _ _ _ hp]
    | none =>
      simp [Globals.set_property, Globals.get_property, hm, mapLookup_mapInsert_self,
        mapLookup, hp]
  · cases hm : mapLookup g.props g2 with
    | some map =>
      simp [Globals.set_property, Globals.get_property, hm,
        mapLookup_mapInsert_ne _ _ _ _ hg]
    | none =>
      simp [Globals.set_property, Globals.get_property, hm,
        mapLookup_mapInsert_ne _ _ _ _ hg]

/-- Helper: a sequence of `set_property` operations none of which touches
`(idx, k)` leaves that property unset. -/
theorem get_property_foldl_untouched (idx : Nat) (k : Interned)
    (ops : List (Nat × Interned × Value)) :
    ∀ g : Globals, g.get_property idx k = none →
      (∀ p ∈ ops, ¬ (p.1 = idx ∧ p.2.1 = k)) →
      (ops.foldl (fun g p => g.set_property p.1 p.2.1 p.2.2) g).get_property idx k = none := by
  induction ops with
  | nil =>
    intro g hg _
    simpa using hg
  | cons p t ih =>
    intro g hg hops
    obtain ⟨g2, p2, v⟩ := p
    simp only [List.foldl]
    refine ih _ ?_ (fun q hq => hops q (List.mem_cons_of_mem _ hq))
    rw [get_property_set_other g idx g2 k p2 v (hops (g2, p2, v) (List.mem_cons_self _ _))]
    exact hg

/-- C8: global property round-trip.  For a symbol `si` bound to global
slot `idx`, `set_prop` with key `k` and value `v` succeeds, stores into
the globals' attribute table and returns `v`; `get_prop` on the same
symbol and key then returns `v`; and `get_prop` on a globals table built
by any sequence of property writes never touching `(idx, k)` returns
`Nil`. -/
theorem global_prop_round_trip (vm : SloshVm) (si k : Interned) (v : Value) (idx : Nat)
    (hslot : vm.global_intern_slot si = some idx) :
    set_prop vm [Value.Symbol si, Value.Keyword k, v] =
        Except.ok (vm.set_global_property idx k v, v) ∧
    get_prop (vm.set_global_property idx k v) [Value.Symbol si, Value.Keyword k] =
        Except.ok v ∧
    (∀ ops : List (Nat × Interned × Value),
      (∀ p ∈ ops, ¬ (p.1 = idx ∧ p.2.1 = k)) →
      get_prop
          { globals := ops.foldl (fun g p => g.set_property p.1 p.2.1 p.2.2) Globals.new,
            slots := vm.slots, heapProps := vm.heapProps }
          [Value.Symbol si, Value.Keyword k] = Except.ok Value.Nil) := by
  refine ⟨?_, ?_, ?_⟩
  · simp [set_prop, prop_key, hslot]
  · have hslot2 : mapLookup vm.slots si = some idx := hslot
    simp [get_prop, prop_key, hslot2, SloshVm.global_intern_slot,
      SloshVm.get_global_property, SloshVm.set_global_property, get_property_after_set]
  · intro ops hops
    have hnone := get_property_foldl_untouched idx k ops Globals.new
      (by simp [Globals.get_property, Globals.new, mapLookup]) hops
    have hslot2 : mapLookup vm.slots si = some idx := hslot
    simp [get_prop, prop_key, hslot2, SloshVm.global_intern_slot,
      SloshVm.get_global_property, hnone]

/-- Witness for C8: slot table `[(3, 0)]`, key 9, value `true`. -/
theorem global_prop_round_trip_witness :
    set_prop ⟨Globals.new, [(3, 0)], []⟩ [Value.Symbol 3, Value.Keyword 9, Value.True] =
        Except.ok
          (SloshVm.set_global_property ⟨Globals.new, [(3, 0)], []⟩ 0 9 Value.True,
            Value.True) ∧
      get_prop (SloshVm.set_global_property ⟨Globals.new, [(3, 0)], []⟩ 0 9 Value.True)
        [Value.Symbol 3, Value.Keyword 9] = Except.ok Value.True ∧
      get_prop ⟨Globals.new, [(3, 0)], []⟩ [Value.Symbol 3, Value.Keyword 9] =
        Except.ok Value.Nil := by
  have h := global_prop_round_trip ⟨Globals.new, [(3, 0)], []⟩ 3 9 Value.True 0 (by decide)
  refine ⟨h.1, h.2.1, ?_⟩
  have h3 := h.2.2 [] (by simp)
  simpa using h3

/-- Helper: under an argument compiler that only appends code and
preserves the tail flag, the argument loop only appends code and
preserves the tail flag. -/
theorem compile_args_appends
    (compileArg : CompileState → Value → Nat → Except VMError CompileState)
    (happ : ∀ s v r s2, compileArg s v r = Except.ok s2 →
      (∃ ext, s2.chunk.code = s.chunk.code ++ ext) ∧ s2.tail = s.tail) :
    ∀ cdr (s : CompileState) (reg : Nat) (s2 : CompileState),
      compile_args compileArg s cdr reg = Except.ok s2 →
      (∃ ext, s2.chunk.code = s.chunk.code ++ ext) ∧ s2.tail = s.tail := by
  intro cdr
  induction cdr with
  | nil =>
    intro s reg s2 h
    injection h with h2
    subst h2
    exact ⟨⟨[], by simp⟩, rfl⟩
  | cons v rest ih =>
    intro s reg s2 h
    simp only [compile_args] at h
    cases harg : compileArg s v reg with
    | error e =>
      rw [harg] at h
      exact Except.noConfusion h
    | ok s1 =>
      rw [harg] at h
      obtain ⟨⟨e1, he1⟩, ht1⟩ := happ s v reg s1 harg
      obtain ⟨⟨e2, he2⟩, ht2⟩ := ih s1 (reg + 1) s2 h
      exact ⟨⟨e1 ++ e2, by rw [he2, he1, List.append_assoc]⟩, by rw [ht2, ht1]⟩

/-- Helper: `compile_params` appends the argument code, follows it with
exactly one `BMOV 1, reg, len` when (and only when) called for a tail
position, and preserves the tail flag. -/
theorem compile_params_appends
    (compileArg : CompileState → Value → Nat → Except VMError CompileState)
    (happ : ∀ s v r s2, compileArg s v r = Except.ok s2 →
      (∃ ext, s2.chunk.code = s.chunk.code ++ ext) ∧ s2.tail = s.tail)
    (s : CompileState) (cdr : List Value) (reg : Nat) (tail : Bool) (s2 : CompileState)
    (h : compile_params compileArg s cdr reg tail = Except.ok s2) :
    (∃ ext, s2.chunk.code =
      s.chunk.code ++ ext ++ (if tail then [Instr.BMOV 1 reg cdr.length] else [])) ∧
    s2.tail = s.tail := by
  unfold compile_params at h
  cases ha : compile_args compileArg s cdr reg with
  | error e =>
    rw [ha] at h
    exact Except.noConfusion h
  | ok sa =>
    rw [ha] at h
    obtain ⟨⟨ext, hext⟩, ht⟩ := compile_args_appends compileArg happ cdr s reg sa ha
    cases tail with
    | false =>
      simp only [Bool.false_eq_true, if_false] at h
      injection h with h2
      subst h2
      exact ⟨⟨ext, by simp [hext]⟩, ht⟩
    | true =>
      simp only [if_true] at h
      injection h with h2
      subst h2
      refine ⟨⟨ext, ?_⟩, ht⟩
      simp [CompileState.emit, hext]

/-- Helper: the last element of a stream extended by two instructions. -/
theorem getLast_two (l : List Instr) (a b : Instr) :
    (l ++ ([a] ++ [b])).getLast? = some b := by
  rw [← List.append_assoc, List.getLast?_concat]

/-- C3: tail-call emission.  Under an argument compiler that appends code
and preserves the tail flag, a successful `compile_call` run: (a) when at
entry `state.tail` is set and `state.defers = 0`, emits the compiled
argument sequence followed by exactly `BMOV 1,result+1,len`, the `CONST`
load of the callable into `b_reg = result+len+1`, and a final `TCALL`;
(b) otherwise emits the argument sequence, the `CONST` load, and a final
`CALL` with no `BMOV` of its own; (c) leaves `state.tail` false on return
(it is cleared before the arguments are compiled, so argument calls are
not themselves in tail position); and (d) the emitted stream ends in the
`TCALL` exactly when `state.tail && state.defers == 0` held at entry. -/
theorem compile_call_tail_emission
    (compileArg : CompileState → Value → Nat → Except VMError CompileState)
    (happ : ∀ s v r s2, compileArg s v r = Except.ok s2 →
      (∃ ext, s2.chunk.code = s.chunk.code ++ ext) ∧ s2.tail = s.tail)
    (state : CompileState) (callable : Value) (cdr : List Value) (result : Nat)
    (sFinal : CompileState)
    (hok : compile_call compileArg state callable cdr result = Except.ok sFinal) :
    (state.tail = true ∧ state.defers = 0 →
      ∃ argsCode k,
        sFinal.chunk.code = state.chunk.code ++ argsCode ++
          [Instr.BMOV 1 (result + 1) cdr.length,
           Instr.CONST (result + cdr.length + 1) k,
           Instr.TCALL (result + cdr.length + 1) cdr.length]) ∧
    (¬ (state.tail = true ∧ state.defers = 0) →
      ∃ argsCode k,
        sFinal.chunk.code = state.chunk.code ++ argsCode ++
          [Instr.CONST (result + cdr.length + 1) k,
           Instr.CALL (result + cdr.length + 1) cdr.length result]) ∧
    sFinal.tail = false ∧
    (sFinal.chunk.code.getLast? =
        some (Instr.TCALL (result + cdr.length + 1) cdr.length) ↔
      (state.tail = true ∧ state.defers = 0)) := by
  simp only [compile_call, CompileState.add_constant] at hok
  set st1 : CompileState :=
    if state.max_regs < result + cdr.length + 1
      then { state with max_regs := result + cdr.length + 1 } else state with hst1
  have h1tail : st1.tail = state.tail := by rw [hst1]; split <;> rfl
  have h1defers : st1.defers = state.defers := by rw [hst1]; split <;> rfl
  have h1code : st1.chunk.code = state.chunk.code := by rw [hst1]; split <;> rfl
  rw [h1tail, h1defers] at hok
  cases htb : (state.tail && (state.defers == 0)) with
  | false =>
    rw [htb] at hok
    have hnottail : ¬ (state.tail = true ∧ state.defers = 0) := by
      intro hc
      rw [hc.1, hc.2] at htb
      simp at htb
    cases hp : compile_params compileArg
        { chunk := { code := st1.chunk.code, constants := st1.chunk.constants ++ [callable] },
          symbols := st1.symbols, tail := false, defers := state.defers,
          max_regs := st1.max_regs } cdr (result + 1) false with
    | error e =>
      rw [hp] at hok
      exact Except.noConfusion hok
    | ok s1 =>
      rw [hp] at hok
      simp only [Bool.false_eq_true, if_false] at hok
      injection hok with h2
      obtain ⟨⟨ext, hext⟩, ht⟩ := compile_params_appends compileArg happ _ cdr
        (result + 1) false s1 hp
      simp only [if_neg, List.append_nil] at hext
      refine ⟨fun hc => absurd hc hnottail, fun _ => ⟨ext, st1.chunk.constants.length, ?_⟩,
        ?_, ?_⟩
      · rw [← h2]
        simp [CompileState.emit, hext, h1code, List.append_assoc]
      · rw [← h2]
        simpa [CompileState.emit] using ht
      · rw [← h2]
        constructor
        · intro hlast
          simp only [CompileState.emit, List.append_assoc] at hlast
          rw [getLast_two] at hlast
          simp at hlast
        · intro hc
          exact absurd hc hnottail
  | true =>
    rw [htb] at hok
    have htail : state.tail = true ∧ state.defers = 0 := by
      simpa using htb
    cases hp : compile_params compileArg
        { chunk := { code := st1.chunk.code, constants := st1.chunk.constants ++ [callable] },
          symbols := st1.symbols, tail := false, defers := state.defers,
          max_regs := st1.max_regs } cdr (result + 1) true with
    | error e =>
      rw [hp] at hok
      exact Except.noConfusion hok
    | ok s1 =>
      rw [hp] at hok
      simp only [if_true] at hok
      injection hok with h2
      obtain ⟨⟨ext, hext⟩, ht⟩ := compile_params_appends compileArg happ _ cdr
        (result + 1) true s1 hp
      simp only [if_pos] at hext
      refine ⟨fun _ => ⟨ext, st1.chunk.constants.length, ?_⟩,
        fun hc => absurd htail hc, ?_, ?_⟩
      · rw [← h2]
        simp [CompileState.emit, hext, h1code, List.append_assoc]
      · rw [← h2]
        simpa [CompileState.emit] using ht
      · rw [← h2]
        constructor
        · intro _
          exact htail
        · intro _
          simp only [CompileState.emit, List.append_assoc]
          exact getLast_two _ _ _

/-- Witness for C3: a one-argument call compiled in tail position with a
concrete argument compiler that emits a `MOV`; the stream ends
`... BMOV 1,1,1; CONST 2,0; TCALL 2,1`. -/
theorem compile_call_tail_emission_witness :
    ∃ argsCode k,
      (⟨⟨[Instr.MOV 1 0, Instr.BMOV 1 1 1, Instr.CONST 2 0, Instr.TCALL 2 1],
          [Value.Nil]⟩, 0, false, 0, 2⟩ : CompileState).chunk.code =
        (⟨⟨[], []⟩, 0, true, 0, 0⟩ : CompileState).chunk.code ++ argsCode ++
          [Instr.BMOV 1 (0 + 1) [Value.True].length,
           Instr.CONST (0 + [Value.True].length + 1) k,
           Instr.TCALL (0 + [Value.True].length + 1) [Value.True].length] :=
  (compile_call_tail_emission
    (fun s _ r => Except.ok (s.emit (Instr.MOV r 0)))
    (fun s v r s2 h => by
      injection h with h2
      subst h2
      exact ⟨⟨[Instr.MOV r 0], rfl⟩, rfl⟩)
    ⟨⟨[], []⟩, 0, true, 0, 0⟩ Value.Nil [Value.True] 0
    ⟨⟨[Instr.MOV 1 0, Instr.BMOV 1 1 1, Instr.CONST 2 0, Instr.TCALL 2 1],
      [Value.Nil]⟩, 0, false, 0, 2⟩
    rfl).1 ⟨rfl, rfl⟩

/-- Helper: the unsigned part of a bit pattern denotes a nonnegative
scaled value. -/
theorem toScaled_mag_nonneg (x : F32) :
    0 ≤ (if x.biasedExp = 0 then (x.frac : Int)
      else ((2 ^ 23 + x.frac : Nat) : Int) * 2 ^ (x.biasedExp - 1)) := by
  split
  · positivity
  · positivity

/-- Helper: clearing the sign bit takes the absolute value of the denoted
scaled value. -/
theorem toScaled_abs (x : F32) :
    (f32abs x).toScaled = ((x.toScaled.natAbs : Nat) : Int) := by
  have hmag := toScaled_mag_nonneg x
  unfold f32abs F32.toScaled
  dsimp only
  simp only [Bool.false_eq_true, if_false]
  cases hs : x.sign
  · simp only [Bool.false_eq_true, if_false]
    rw [Int.natAbs_of_nonneg hmag]
  · simp only [if_true]
    rw [Int.natAbs_neg, Int.natAbs_of_nonneg hmag]

set_option maxRecDepth 8192 in
/-- C1 counterexample: `1.0` and the very next float `1.0 + 2^-23` are one
ULP apart (so the claim says they are equal), yet `F32Wrap::eq` — which
tests `(a - b).abs() < f32::EPSILON` — declares them unequal, since their
difference is exactly epsilon. -/
theorem f32wrap_eq_not_ulp_counterexample :
    withinOneUlp ⟨false, 127, 0⟩ ⟨false, 127, 1⟩ ∧
      f32WrapEq ⟨false, 127, 0⟩ ⟨false, 127, 1⟩ = false := by
  constructor
  · unfold withinOneUlp F32.ulpScaled
    decide
  · decide

/-- Helper: a finite pattern is not a NaN. -/
theorem isNan_false_of_finite (x : F32) (h : x.isFinite) : x.isNan = false := by
  have hbe : (x.biasedExp == 255) = false := by
    have hlt : x.biasedExp < 255 := h
    simp only [beq_eq_false_iff_ne]
    omega
  unfold F32.isNan
  rw [hbe, Bool.false_and]

/-- Helper: a finite pattern is not an infinity. -/
theorem isInf_false_of_finite (x : F32) (h : x.isFinite) : x.isInf = false := by
  have hbe : (x.biasedExp == 255) = false := by
    have hlt : x.biasedExp < 255 := h
    simp only [beq_eq_false_iff_ne]
    omega
  unfold F32.isInf
  rw [hbe, Bool.false_and]

/-- Helper: rounding never produces a NaN pattern (overflow clamps to the
infinity pattern, whose fraction is zero). -/
theorem roundScaled_isNan (d : Int) : (roundScaled d).isNan = false := by
  unfold roundScaled F32.isNan
  split
  · rfl
  · dsimp only
    split_ifs <;> simp_all <;> omega

/-- Helper: clearing the sign bit does not change NaN-ness. -/
theorem f32abs_isNan (x : F32) : (f32abs x).isNan = x.isNan := rfl

/-- Helper: with no NaN involved, `f32lt` is the scaled comparison. -/
theorem f32lt_not_nan (x y : F32) (hx : x.isNan = false) (hy : y.isNan = false) :
    f32lt x y = decide (x.toScaled < y.toScaled) := by
  unfold f32lt
  rw [hx, hy]
  simp

/-- C1 amended: for finite floats, `F32Wrap` equality holds exactly when
the f32 difference `a - b` is smaller than `f32::EPSILON = 2^-23` in
absolute value — an absolute tolerance, not a one-ULP relation; a NaN
operand always compares unequal (the subtraction yields NaN and the
comparison is false, so `F32Wrap(NaN) != F32Wrap(NaN)`); and two floats
hash alike exactly when they have the same bit pattern. -/
theorem f32wrap_eq_epsilon (a b : F32) (ha : a.valid) (hb : b.valid) :
    (a.isFinite → b.isFinite →
      (f32WrapEq a b = true ↔
        (((f32sub a b).toScaled.natAbs : Nat) : Int) < F32_EPSILON.toScaled)) ∧
    (f32WrapHash a = f32WrapHash b ↔ a = b) ∧
    (a.isNan = true → f32WrapEq a b = false) ∧
    (b.isNan = true → f32WrapEq a b = false) := by
  refine ⟨?_, ?_, ?_, ?_⟩
  · intro haf hbf
    have hna : a.isNan = false := isNan_false_of_finite a haf
    have hnb : b.isNan = false := isNan_false_of_finite b hbf
    have hia : a.isInf = false := isInf_false_of_finite a haf
    have hib : b.isInf = false := isInf_false_of_finite b hbf
    have hsub : f32sub a b = roundScaled (a.toScaled - b.toScaled) := by
      unfold f32sub
      rw [hna, hnb, hia, hib]
      simp
    unfold f32WrapEq
    rw [hsub, f32lt_not_nan (f32abs (roundScaled (a.toScaled - b.toScaled))) F32_EPSILON
      (by rw [f32abs_isNan]; exact roundScaled_isNan _) (by rfl)]
    rw [← hsub, toScaled_abs]
    exact decide_eq_true_iff
  · rcases a with ⟨sa, ea, fa⟩
    rcases b with ⟨sb, eb, fb⟩
    obtain ⟨hae, haf⟩ := ha
    obtain ⟨hbe, hbf⟩ := hb
    have hae2 : ea < 256 := hae
    have hbe2 : eb < 256 := hbe
    have haf2 : fa < 2 ^ 23 := haf
    have hbf2 : fb < 2 ^ 23 := hbf
    norm_num at haf2 hbf2
    unfold f32WrapHash F32.toBits
    dsimp only
    constructor
    · intro h
      simp only [F32.mk.injEq]
      cases sa <;> cases sb <;>
        first
          | (exfalso; norm_num at h; omega)
          | (norm_num at h ⊢; omega)
    · intro h
      cases h
      rfl
  · intro hnan
    have hsub : f32sub a b = F32_QNAN := by
      unfold f32sub
      rw [hnan]
      simp
    unfold f32WrapEq
    rw [hsub]
    rfl
  · intro hnan
    have hsub : f32sub a b = F32_QNAN := by
      unfold f32sub
      rw [hnan]
      simp
    unfold f32WrapEq
    rw [hsub]
    rfl

/-- Witness for C1 (amended) at `1.0` and `1.0 + 2^-23` (finite case), at
the quiet-NaN pattern against itself, and at `+Inf` against itself: the
epsilon and hash characterizations hold, and both special self-pairs
compare unequal, as in the program. -/
theorem f32wrap_eq_epsilon_witness :
    (f32WrapEq ⟨false, 127, 0⟩ ⟨false, 127, 1⟩ = true ↔
      (((f32sub ⟨false, 127, 0⟩ ⟨false, 127, 1⟩).toScaled.natAbs : Nat) : Int) <
        F32_EPSILON.toScaled) ∧
    (f32WrapHash ⟨false, 127, 0⟩ = f32WrapHash ⟨false, 127, 1⟩ ↔
      (⟨false, 127, 0⟩ : F32) = ⟨false, 127, 1⟩) ∧
    f32WrapEq F32_QNAN F32_QNAN = false ∧
    f32WrapEq ⟨false, 255, 0⟩ ⟨false, 255, 0⟩ = false :=
  ⟨(f32wrap_eq_epsilon ⟨false, 127, 0⟩ ⟨false, 127, 1⟩
      ⟨by norm_num, by norm_num⟩ ⟨by norm_num, by norm_num⟩).1
      (by norm_num [F32.isFinite]) (by norm_num [F32.isFinite]),
    (f32wrap_eq_epsilon ⟨false, 127, 0⟩ ⟨false, 127, 1⟩
      ⟨by norm_num, by norm_num⟩ ⟨by norm_num, by norm_num⟩).2.1,
    (f32wrap_eq_epsilon F32_QNAN F32_QNAN
      ⟨by norm_num [F32_QNAN], by norm_num [F32_QNAN]⟩
      ⟨by norm_num [F32_QNAN], by norm_num [F32_QNAN]⟩).2.2.1 (by decide),
    by decide⟩

end SLVM
